import Mathlib

/-!
Verification of the job scheduling / dashboard core of `game-autoplay`.

The definitions below are a shallow embedding of `src/server/queue.ts`
(`JobQueue`), the runner admission step of `src/server/runner.ts`
(`JobRunner.start`), the broadcast fan-out of `src/server/index.ts`
(`DashboardServer.broadcast` / `createSSEStream`) and the `/api/results`
handler of the server entry point.

Modelling conventions:
* JS `Map` is an insertion-ordered association list; `Map.set` updates in
  place, appending new keys.  JS `Set` is an insertion-ordered
  duplicate-free list.
* `crypto.randomUUID()` is modelled by a fresh-id counter `nextId`: each
  generated id is distinct from every previously generated one.
* `new Date()` is an explicit `now : Nat` parameter, in epoch milliseconds.
  The ISO timestamp truncated to `YYYY-MM-DD_HHMMSS` (second resolution)
  determines and is determined by `now / 1000`, so it is rendered as that
  second count.
* Exceptions are `Except`; a `try/catch` is an explicit `match`.
-/

namespace GameAutoplay

/-- `JobStatus` from queue.ts: `'pending' | 'running' | 'completed' | 'failed'`. -/
inductive JobStatus where
  | pending
  | running
  | completed
  | failed
deriving DecidableEq, Repr

/-- The result of `new URL(url)` as used by `generateOutputDir`:
only `hostname` and `pathname` are consumed. -/
structure Url where
  hostname : String
  pathname : String
deriving DecidableEq, Repr

/-- The `Job` record of queue.ts.  Ids are modelled as `Nat` (fresh-id
counter in place of `crypto.randomUUID()`); timestamps as epoch
milliseconds. -/
structure Job where
  id : Nat
  url : Url
  status : JobStatus
  outputDir : String
  createdAt : Nat
  startedAt : Option Nat := none
  completedAt : Option Nat := none
  duration : Option Nat := none
  actionCount : Option Nat := none
  screenshotCount : Option Nat := none
  error : Option String := none
deriving DecidableEq, Repr

/-- `hostname.replace(/\./g, '-')`. -/
def replaceDots (s : String) : String :=
  String.mk (s.data.map (fun c => if c = '.' then '-' else c))

/-- `pathname.replace(/\//g, '-')`. -/
def slashesToDashes (s : String) : String :=
  String.mk (s.data.map (fun c => if c = '/' then '-' else c))

/-- The leading-dash removal step of `generateOutputDir` (the regex
replacement anchored at the start of the string): removes one leading
dash, if any. -/
def dropLeadingDash (s : String) : String :=
  match s.data with
  | '-' :: rest => String.mk rest
  | _ => s

/-- `.replace(/[^a-z0-9-]/gi, '-')`: every character outside
`[a-zA-Z0-9-]` becomes a dash. -/
def dashifyOthers (s : String) : String :=
  String.mk (s.data.map (fun c => if c.isAlphanum ∨ c = '-' then c else '-'))

/-- Helper for the dash-run collapsing step: collapses every run of
dashes to a single dash, tracking whether the previously kept character
was a dash. -/
def collapseDashesAux : List Char → Bool → List Char
  | [], _ => []
  | c :: rest, prevDash =>
    if c = '-' then
      if prevDash then collapseDashesAux rest true
      else '-' :: collapseDashesAux rest true
    else c :: collapseDashesAux rest false

/-- The final sanitization step of `generateOutputDir`: every run of
dashes collapses to a single dash. -/
def collapseDashes (s : String) : String :=
  String.mk (collapseDashesAux s.data false)

/-- The `sanitized` string of `generateOutputDir`. -/
def sanitizeUrl (url : Url) : String :=
  let hostname := replaceDots url.hostname
  let pathname := dropLeadingDash (slashesToDashes url.pathname)
  collapseDashes (dashifyOthers (hostname ++ pathname))

/-- The `YYYY-MM-DD_HHMMSS` timestamp of `generateOutputDir`: second
resolution.  Rendered as the epoch second count, which the truncated ISO
string determines and is determined by. -/
def timestampSecond (nowMs : Nat) : String :=
  toString (nowMs / 1000)

/-- `JobQueue.generateOutputDir`. -/
def generateOutputDir (url : Url) (nowMs : Nat) : String :=
  "output/" ++ sanitizeUrl url ++ "_" ++ timestampSecond nowMs

/-- JS `Map.get` on an insertion-ordered association list. -/
def mapGet (m : List (Nat × Job)) (k : Nat) : Option Job :=
  (m.find? (fun p => p.1 = k)).map (fun p => p.2)

/-- JS `Map.set`: updates an existing key in place, appends a new key. -/
def mapSet : List (Nat × Job) → Nat → Job → List (Nat × Job)
  | [], k, v => [(k, v)]
  | (k', v') :: rest, k, v =>
    if k' = k then (k, v) :: rest else (k', v') :: mapSet rest k v

/-- JS `Set.add` on an insertion-ordered duplicate-free list. -/
def setAdd (s : List Nat) (x : Nat) : List Nat :=
  if x ∈ s then s else s ++ [x]

/-- JS `Set.delete`. -/
def setDelete (s : List Nat) (x : Nat) : List Nat :=
  s.filter (fun y => y ≠ x)

/-- The mutable state of `JobQueue`: `jobs`, `queue`, `runningJobIds`,
`maxConcurrent`, plus the fresh-id counter standing in for
`crypto.randomUUID()`. -/
structure JobQueue where
  jobs : List (Nat × Job)
  queue : List Nat
  runningJobIds : List Nat
  maxConcurrent : Nat
  nextId : Nat
deriving DecidableEq, Repr

/-- A fresh `JobQueue` whose concurrency limit has been configured to `m`
(`new JobQueue()` followed by the startup `setMaxConcurrent` call). -/
def initQueue (m : Nat) : JobQueue :=
  { jobs := [], queue := [], runningJobIds := [], maxConcurrent := m, nextId := 0 }

/-- `JobQueue.addJobs`: one `Job` per url, fresh id, `pending` status,
output directory from `generateOutputDir`, pushed onto `jobs` and `queue`. -/
def addJobs (q : JobQueue) (urls : List Url) (now : Nat) : List Job × JobQueue :=
  match urls with
  | [] => ([], q)
  | url :: rest =>
    let job : Job :=
      { id := q.nextId
        url := url
        status := .pending
        outputDir := generateOutputDir url now
        createdAt := now }
    let q1 : JobQueue :=
      { q with
        jobs := mapSet q.jobs job.id job
        queue := q.queue ++ [job.id]
        nextId := q.nextId + 1 }
    (job :: (addJobs q1 rest now).1, (addJobs q1 rest now).2)

/-- `maxConcurrent - runningJobIds.size` as computed in `getNextJobs`
(a JS number, possibly negative). -/
def availableSlots (q : JobQueue) : Int :=
  (q.maxConcurrent : Int) - q.runningJobIds.length

/-- `JobQueue.getNextJobs`: up to `availableSlots` jobs from the front of
`queue`, looked up in `jobs`; returns `[]` when no slot is free or the
queue is empty.  Pure observer: mutates nothing. -/
def getNextJobs (q : JobQueue) : List Job :=
  if availableSlots q ≤ 0 ∨ q.queue.length = 0 then []
  else
    let count := min (availableSlots q).toNat q.queue.length
    (q.queue.take count).filterMap (fun id => mapGet q.jobs id)

/-- `JobQueue.startJob`: `null` for an unknown id; otherwise
unconditionally sets `status := running`, stamps `startedAt`, adds the id
to `runningJobIds` and filters it out of `queue`. -/
def startJob (q : JobQueue) (jobId : Nat) (now : Nat) : Option Job × JobQueue :=
  match mapGet q.jobs jobId with
  | none => (none, q)
  | some job =>
    let job1 := { job with status := .running, startedAt := some now }
    (some job1,
      { q with
        jobs := mapSet q.jobs jobId job1
        runningJobIds := setAdd q.runningJobIds jobId
        queue := q.queue.filter (fun id => id ≠ jobId) })

/-- The `metadata` argument of `JobQueue.completeJob`. -/
structure CompletionMetadata where
  duration : Nat
  actionCount : Nat
  screenshotCount : Nat
deriving DecidableEq, Repr

/-- `JobQueue.completeJob`: `null` for an unknown id; otherwise
unconditionally sets `status := completed`, stamps `completedAt`, copies
the metadata and deletes the id from `runningJobIds`.  The id is NOT
removed from `queue` (the source has no `queue.filter` here, unlike
`startJob` and `failJob`). -/
def completeJob (q : JobQueue) (jobId : Nat) (meta : CompletionMetadata) (now : Nat) :
    Option Job × JobQueue :=
  match mapGet q.jobs jobId with
  | none => (none, q)
  | some job =>
    let job1 :=
      { job with
        status := .completed
        completedAt := some now
        duration := some meta.duration
        actionCount := some meta.actionCount
        screenshotCount := some meta.screenshotCount }
    (some job1,
      { q with
        jobs := mapSet q.jobs jobId job1
        runningJobIds := setDelete q.runningJobIds jobId })

/-- `JobQueue.failJob`: `null` for an unknown id; otherwise
unconditionally sets `status := failed`, stamps `completedAt`, records the
error, deletes the id from `runningJobIds` and filters it out of `queue`. -/
def failJob (q : JobQueue) (jobId : Nat) (err : String) (now : Nat) :
    Option Job × JobQueue :=
  match mapGet q.jobs jobId with
  | none => (none, q)
  | some job =>
    let job1 :=
      { job with
        status := .failed
        completedAt := some now
        error := some err }
    (some job1,
      { q with
        jobs := mapSet q.jobs jobId job1
        runningJobIds := setDelete q.runningJobIds jobId
        queue := q.queue.filter (fun id => id ≠ jobId) })

/-- `QueueStats` of queue.ts. -/
structure QueueStats where
  pending : Nat
  running : Nat
  completed : Nat
  failed : Nat
deriving DecidableEq, Repr

/-- One `stats[job.status]++` step of `getStats`. -/
def bumpStat (st : QueueStats) (s : JobStatus) : QueueStats :=
  match s with
  | .pending => { st with pending := st.pending + 1 }
  | .running => { st with running := st.running + 1 }
  | .completed => { st with completed := st.completed + 1 }
  | .failed => { st with failed := st.failed + 1 }

/-- `JobQueue.getStats`: counts jobs by status over the whole map. -/
def getStats (q : JobQueue) : QueueStats :=
  q.jobs.foldl (fun st p => bumpStat st p.2.status) ⟨0, 0, 0, 0⟩

/-- `JobQueue.canStartMoreJobs`. -/
def canStartMoreJobs (q : JobQueue) : Bool :=
  q.runningJobIds.length < q.maxConcurrent ∧ q.queue.length ≠ 0

/-- `startJob` applied to each id in turn (the runner starting every job
returned by `getNextJobs`). -/
def startAll (q : JobQueue) (ids : List Nat) (now : Nat) : JobQueue :=
  ids.foldl (fun s id => (startJob s id now).2) q

/-- One tick of `JobRunner.start`: if more jobs can start, pull
`getNextJobs` and start each returned job. -/
def admissionStep (q : JobQueue) (now : Nat) : JobQueue :=
  if canStartMoreJobs q then startAll q ((getNextJobs q).map (fun j => j.id)) now
  else q

/-- A connected WebSocket client of `DashboardServer`.  `sendFails`
models the connection state under which `client.send(payload)` throws. -/
structure WSClient where
  clientId : String
  sendFails : Bool
deriving DecidableEq, Repr

/-- A registered SSE client of `DashboardServer`: optional job filter set
at `createSSEStream`, `enqueueFails` models the stream controller state
under which `controller.enqueue` throws. -/
structure SSEClient where
  id : String
  jobId : Option String
  enqueueFails : Bool
deriving DecidableEq, Repr

/-- A broadcast message: its `type` tag and `message.data?.jobId` (which
is `none` both when `data` is absent and when `data` lacks a `jobId`). -/
structure Msg where
  type : String
  dataJobId : Option String
deriving DecidableEq, Repr

/-- The subscriber registries of `DashboardServer`.  `sseClients` is a
`Map` keyed by client id, hence its ids are duplicate-free. -/
structure DashboardServer where
  clients : List WSClient
  sseClients : List SSEClient
deriving DecidableEq, Repr

/-- The filter test in `broadcast`:
`sseClient.jobId && message.data?.jobId !== sseClient.jobId`.
JS truthiness: a missing or empty-string `jobId` filter is falsy, so such
a client is never skipped. -/
def sseSkips (c : SSEClient) (m : Msg) : Bool :=
  match c.jobId with
  | some b => decide (b ≠ "") && decide (m.dataJobId ≠ some b)
  | none => false

/-- The SSE half of `broadcast`: walks the registry in order; a skipped
client stays; a client whose `enqueue` throws is caught and deleted from
the registry; otherwise the event is delivered.  Returns the surviving
registry and the ids delivered to. -/
def broadcastSSE (m : Msg) : List SSEClient → List SSEClient × List String
  | [] => ([], [])
  | c :: rest =>
    if sseSkips c m then (c :: (broadcastSSE m rest).1, (broadcastSSE m rest).2)
    else if c.enqueueFails then broadcastSSE m rest
    else (c :: (broadcastSSE m rest).1, c.id :: (broadcastSSE m rest).2)

/-- The outcome of one `broadcast` call: the new registries and the
client ids each payload was delivered to. -/
structure BroadcastResult where
  server : DashboardServer
  wsDelivered : List String
  sseDelivered : List String
deriving DecidableEq, Repr

/-- `DashboardServer.broadcast`: sends to every WebSocket client (a
throwing `send` is caught and only logged — the client set is untouched),
then to every SSE client through `broadcastSSE`.  All exceptions are
caught, so the call itself never throws. -/
def broadcast (s : DashboardServer) (m : Msg) : BroadcastResult :=
  { server := { clients := s.clients, sseClients := (broadcastSSE m s.sseClients).1 }
    wsDelivered := (s.clients.filter (fun c => !c.sendFails)).map (fun c => c.clientId)
    sseDelivered := (broadcastSSE m s.sseClients).2 }

/-- A persisted `run-metadata.json` as the `/api/results` handler sees it:
`startedAt` is the field it sorts on (epoch milliseconds). -/
structure RunRecord where
  jobId : Nat
  startedAt : Nat
deriving DecidableEq, Repr

/-- One entry of the output root: its name, whether it is a directory,
and its `run-metadata.json` — `none` when the file is absent, and
`some none` inside `metadata` when the file exists but `JSON.parse`
throws on it. -/
structure DirEntry where
  name : String
  isDir : Bool
  metadata : Option (Option RunRecord)
deriving DecidableEq, Repr

/-- The scan loop of the `/api/results` handler: for each directory with
an existing metadata file, parse it and collect it; a parse failure
throws out of the whole loop. -/
def collectRuns : List DirEntry → Except Unit (List (String × RunRecord))
  | [] => .ok []
  | e :: rest =>
    if e.isDir then
      match e.metadata with
      | some parsed =>
        match parsed with
        | some r => (collectRuns rest).map (fun runs => (e.name, r) :: runs)
        | none => .error ()
      | none => collectRuns rest
    else collectRuns rest

/-- Descending insertion by `startedAt` (the handler's
`runs.sort` comparator on `new Date(startedAt).getTime()`). -/
def insertByStartedAt (x : String × RunRecord) :
    List (String × RunRecord) → List (String × RunRecord)
  | [] => [x]
  | y :: rest =>
    if y.2.startedAt ≤ x.2.startedAt then x :: y :: rest
    else y :: insertByStartedAt x rest

/-- Sort the collected runs most-recent-first. -/
def sortRunsDesc (runs : List (String × RunRecord)) : List (String × RunRecord) :=
  runs.foldr insertByStartedAt []

/-- The `/api/results` handler body: collect and sort; the surrounding
`try/catch` turns any thrown error — including a metadata parse failure —
into an empty `runs` list. -/
def apiResults (entries : List DirEntry) : List (String × RunRecord) :=
  match collectRuns entries with
  | .ok runs => sortRunsDesc runs
  | .error _ => []

/-- The directory records the claim expects `/api/results` to return: one
per directory whose metadata file exists and parses. -/
def wellFormedRuns (entries : List DirEntry) : List (String × RunRecord) :=
  entries.filterMap (fun e =>
    if e.isDir then
      match e.metadata with
      | some (some r) => some (e.name, r)
      | _ => none
    else none)

/-- One scheduler-system step as listed in the concurrency-cap property:
a submission, one runner admission tick (`getNextJobs` followed by
`startJob` on each returned job), a completion, or a failure. -/
inductive Step : JobQueue → JobQueue → Prop where
  | add (q : JobQueue) (urls : List Url) (now : Nat) :
      Step q (addJobs q urls now).2
  | tick (q : JobQueue) (now : Nat) :
      Step q (admissionStep q now)
  | complete (q : JobQueue) (id : Nat) (meta : CompletionMetadata) (now : Nat) :
      Step q (completeJob q id meta now).2
  | fail (q : JobQueue) (id : Nat) (err : String) (now : Nat) :
      Step q (failJob q id err now).2

/-- States reachable from a fresh queue configured with limit `m` through
the scheduler-system steps. -/
inductive Reachable (m : Nat) : JobQueue → Prop where
  | init : Reachable m (initQueue m)
  | step {q q' : JobQueue} : Reachable m q → Step q q' → Reachable m q'

/-- The repository operations of queue.ts, as invokable in any order with
any arguments (for trace-indexed properties). -/
inductive Op where
  | add (urls : List Url) (now : Nat)
  | start (id : Nat) (now : Nat)
  | complete (id : Nat) (meta : CompletionMetadata) (now : Nat)
  | fail (id : Nat) (err : String) (now : Nat)
deriving Repr

/-- Apply one repository operation. -/
def applyOp (q : JobQueue) : Op → JobQueue
  | .add urls now => (addJobs q urls now).2
  | .start id now => (startJob q id now).2
  | .complete id meta now => (completeJob q id meta now).2
  | .fail id err now => (failJob q id err now).2

/-- Run a whole operation sequence. -/
def runOps (q : JobQueue) (ops : List Op) : JobQueue :=
  ops.foldl applyOp q

/-- Total number of jobs submitted by a trace (each `addJobs` call
submits one job per url; nothing else creates or deletes jobs). -/
def submittedCount : List Op → Nat
  | [] => 0
  | .add urls _ :: rest => urls.length + submittedCount rest
  | _ :: rest => submittedCount rest

/-- `pending + running + completed + failed`. -/
def statsSum (st : QueueStats) : Nat :=
  st.pending + st.running + st.completed + st.failed

/-- The status of job `id` in state `q`, when present. -/
def statusOf (q : JobQueue) (id : Nat) : Option JobStatus :=
  (mapGet q.jobs id).map (fun j => j.status)

/-- The runner-discipline steps: every transition is invoked only on a
job in its expected prior state (`startJob` on a pending job,
`completeJob` and `failJob` on a running job). -/
inductive GuardedStep : JobQueue → JobQueue → Prop where
  | add (q : JobQueue) (urls : List Url) (now : Nat) :
      GuardedStep q (addJobs q urls now).2
  | start (q : JobQueue) (id : Nat) (now : Nat) :
      statusOf q id = some .pending → GuardedStep q (startJob q id now).2
  | complete (q : JobQueue) (id : Nat) (meta : CompletionMetadata) (now : Nat) :
      statusOf q id = some .running → GuardedStep q (completeJob q id meta now).2
  | fail (q : JobQueue) (id : Nat) (err : String) (now : Nat) :
      statusOf q id = some .running → GuardedStep q (failJob q id err now).2

/-- Rank of a status in the lifecycle order
`pending → running → terminal`. -/
def statusRank : JobStatus → Nat
  | .pending => 0
  | .running => 1
  | .completed => 2
  | .failed => 2

/-- Every key of the job map is below the fresh-id counter (true of every
state the code can build, since ids are generated from the counter). -/
def KeysBelowNext (q : JobQueue) : Prop :=
  ∀ k ∈ q.jobs.map (fun p => p.1), k < q.nextId

/-- Sample parsed URL used by concrete witnesses: `https://example.com/game`. -/
def sampleUrl : Url := { hostname := "example.com", pathname := "/game" }

/-- Sample completion metadata used by concrete witnesses. -/
def sampleMeta : CompletionMetadata := { duration := 5, actionCount := 3, screenshotCount := 2 }

section MapLemmas

theorem mapGet_mapSet_self (m : List (Nat × Job)) (k : Nat) (v : Job) :
    mapGet (mapSet m k v) k = some v := by
  induction m with
  | nil => simp [mapGet, mapSet, List.find?]
  | cons p rest ih =>
    by_cases h : p.1 = k
    · simp [mapSet, h, mapGet, List.find?]
    · simp only [mapSet]
      rw [if_neg h]
      simpa [mapGet, List.find?, h] using ih

theorem mapGet_mapSet_ne (m : List (Nat × Job)) (k k' : Nat) (v : Job) (h : k' ≠ k) :
    mapGet (mapSet m k v) k' = mapGet m k' := by
  induction m with
  | nil =>
    simp only [mapGet, mapSet, List.find?]
    rw [decide_eq_false (Ne.symm h)]
  | cons p rest ih =>
    by_cases hp : p.1 = k
    · subst hp
      simp only [mapSet, if_pos rfl, mapGet, List.find?]
      rw [decide_eq_false (Ne.symm h)]
    · simp only [mapSet]
      rw [if_neg hp]
      by_cases hk' : p.1 = k'
      · simp [mapGet, List.find?, hk']
      · simpa [mapGet, List.find?, hk'] using ih

theorem mem_keys_of_mapGet (m : List (Nat × Job)) (k : Nat) (j : Job)
    (h : mapGet m k = some j) : k ∈ m.map Prod.fst := by
  induction m with
  | nil => simp [mapGet, List.find?] at h
  | cons p rest ih =>
    by_cases hp : p.1 = k
    · simp [hp]
    · have h' : mapGet rest k = some j := by
        simpa [mapGet, List.find?, decide_eq_false hp] using h
      exact List.mem_cons_of_mem _ (ih h')

theorem length_mapSet_of_mem (m : List (Nat × Job)) (k : Nat) (v : Job)
    (h : k ∈ m.map Prod.fst) : (mapSet m k v).length = m.length := by
  induction m with
  | nil => simp at h
  | cons p rest ih =>
    by_cases hp : p.1 = k
    · simp [mapSet, hp]
    · simp only [List.map_cons, List.mem_cons] at h
      rcases h with h | h
      · exact absurd h.symm hp
      · simp only [mapSet]
        rw [if_neg hp]
        simp [ih h]

theorem length_mapSet_of_not_mem (m : List (Nat × Job)) (k : Nat) (v : Job)
    (h : k ∉ m.map Prod.fst) : (mapSet m k v).length = m.length + 1 := by
  induction m with
  | nil => simp [mapSet]
  | cons p rest ih =>
    simp only [List.map_cons, List.mem_cons] at h
    push_neg at h
    simp only [mapSet]
    rw [if_neg (fun hp => h.1 hp.symm)]
    simp [ih h.2]

theorem keys_mapSet_of_mem (m : List (Nat × Job)) (k : Nat) (v : Job)
    (h : k ∈ m.map Prod.fst) : (mapSet m k v).map Prod.fst = m.map Prod.fst := by
  induction m with
  | nil => simp at h
  | cons p rest ih =>
    by_cases hp : p.1 = k
    · simp [mapSet, hp]
    · simp only [List.map_cons, List.mem_cons] at h
      rcases h with h | h
      · exact absurd h.symm hp
      · simp only [mapSet]
        rw [if_neg hp]
        simp [ih h]

theorem keys_mapSet_of_not_mem (m : List (Nat × Job)) (k : Nat) (v : Job)
    (h : k ∉ m.map Prod.fst) : (mapSet m k v).map Prod.fst = m.map Prod.fst ++ [k] := by
  induction m with
  | nil => simp [mapSet]
  | cons p rest ih =>
    simp only [List.map_cons, List.mem_cons] at h
    push_neg at h
    simp only [mapSet]
    rw [if_neg (fun hp => h.1 hp.symm)]
    simp [ih h.2]

theorem setAdd_length_le (s : List Nat) (x : Nat) :
    (setAdd s x).length ≤ s.length + 1 := by
  by_cases h : x ∈ s <;> simp [setAdd, h]

theorem setAdd_of_mem (s : List Nat) (x : Nat) (h : x ∈ s) : setAdd s x = s := by
  simp [setAdd, h]

theorem setDelete_length_le (s : List Nat) (x : Nat) :
    (setDelete s x).length ≤ s.length :=
  List.length_filter_le _ s

end MapLemmas

section PreservationLemmas

theorem addJobs_maxConcurrent (urls : List Url) : ∀ (q : JobQueue) (now : Nat),
    (addJobs q urls now).2.maxConcurrent = q.maxConcurrent := by
  induction urls with
  | nil => intro q now; rfl
  | cons u rest ih => intro q now; simpa [addJobs] using ih _ now

theorem addJobs_runningJobIds (urls : List Url) : ∀ (q : JobQueue) (now : Nat),
    (addJobs q urls now).2.runningJobIds = q.runningJobIds := by
  induction urls with
  | nil => intro q now; rfl
  | cons u rest ih => intro q now; simpa [addJobs] using ih _ now

theorem startJob_maxConcurrent (q : JobQueue) (id now : Nat) :
    (startJob q id now).2.maxConcurrent = q.maxConcurrent := by
  cases h : mapGet q.jobs id <;> simp [startJob, h]

theorem completeJob_maxConcurrent (q : JobQueue) (id : Nat) (meta : CompletionMetadata)
    (now : Nat) : (completeJob q id meta now).2.maxConcurrent = q.maxConcurrent := by
  cases h : mapGet q.jobs id <;> simp [completeJob, h]

theorem failJob_maxConcurrent (q : JobQueue) (id : Nat) (err : String) (now : Nat) :
    (failJob q id err now).2.maxConcurrent = q.maxConcurrent := by
  cases h : mapGet q.jobs id <;> simp [failJob, h]

theorem startAll_maxConcurrent (ids : List Nat) : ∀ (q : JobQueue) (now : Nat),
    (startAll q ids now).maxConcurrent = q.maxConcurrent := by
  induction ids with
  | nil => intro q now; rfl
  | cons i rest ih =>
    intro q now
    simp only [startAll, List.foldl_cons]
    simpa [startAll] using ((ih _ now).trans (startJob_maxConcurrent q i now))

theorem startJob_running_le (q : JobQueue) (id now : Nat) :
    (startJob q id now).2.runningJobIds.length ≤ q.runningJobIds.length + 1 := by
  cases h : mapGet q.jobs id with
  | none => simp [startJob, h]
  | some j => simpa [startJob, h] using setAdd_length_le q.runningJobIds id

theorem startAll_running_le (ids : List Nat) : ∀ (q : JobQueue) (now : Nat),
    (startAll q ids now).runningJobIds.length ≤ q.runningJobIds.length + ids.length := by
  induction ids with
  | nil => intro q now; simp [startAll]
  | cons i rest ih =>
    intro q now
    simp only [startAll, List.foldl_cons, List.length_cons]
    have h1 := ih (startJob q i now).2 now
    have h2 := startJob_running_le q i now
    simp only [startAll] at h1
    omega

theorem getNextJobs_length_le (q : JobQueue) :
    (getNextJobs q).length ≤ (availableSlots q).toNat := by
  unfold getNextJobs
  split
  · simp
  · calc ((q.queue.take (min (availableSlots q).toNat q.queue.length)).filterMap
            (fun id => mapGet q.jobs id)).length
        ≤ (q.queue.take (min (availableSlots q).toNat q.queue.length)).length :=
          List.length_filterMap_le _ _
      _ ≤ (availableSlots q).toNat := by
          rw [List.length_take]; omega

end PreservationLemmas

section StatsLemmas

theorem statsSum_bump (st : QueueStats) (s : JobStatus) :
    statsSum (bumpStat st s) = statsSum st + 1 := by
  cases s <;> simp [bumpStat, statsSum] <;> omega

theorem statsSum_foldl (l : List (Nat × Job)) : ∀ st : QueueStats,
    statsSum (l.foldl (fun st p => bumpStat st p.2.status) st) = statsSum st + l.length := by
  induction l with
  | nil => intro st; simp
  | cons p rest ih =>
    intro st
    simp only [List.foldl_cons, List.length_cons]
    rw [ih, statsSum_bump]
    omega

theorem statsSum_getStats (q : JobQueue) : statsSum (getStats q) = q.jobs.length := by
  simpa [getStats, statsSum] using statsSum_foldl q.jobs ⟨0, 0, 0, 0⟩

end StatsLemmas

section CapLemmas

theorem completeJob_running_le (q : JobQueue) (id : Nat) (meta : CompletionMetadata)
    (now : Nat) :
    (completeJob q id meta now).2.runningJobIds.length ≤ q.runningJobIds.length := by
  cases h : mapGet q.jobs id with
  | none => simp [completeJob, h]
  | some j => simpa [completeJob, h] using setDelete_length_le q.runningJobIds id

theorem failJob_running_le (q : JobQueue) (id : Nat) (err : String) (now : Nat) :
    (failJob q id err now).2.runningJobIds.length ≤ q.runningJobIds.length := by
  cases h : mapGet q.jobs id with
  | none => simp [failJob, h]
  | some j => simpa [failJob, h] using setDelete_length_le q.runningJobIds id

theorem admissionStep_cap (q : JobQueue) (now : Nat)
    (h : q.runningJobIds.length ≤ q.maxConcurrent) :
    (admissionStep q now).runningJobIds.length ≤ (admissionStep q now).maxConcurrent := by
  unfold admissionStep
  split
  case isTrue hc =>
    have hc' : q.runningJobIds.length < q.maxConcurrent ∧ q.queue.length ≠ 0 := by
      simpa [canStartMoreJobs] using hc
    have hlen : ((getNextJobs q).map (fun j => j.id)).length ≤ (availableSlots q).toNat := by
      simpa using getNextJobs_length_le q
    have h1 := startAll_running_le ((getNextJobs q).map (fun j => j.id)) q now
    have hmax := startAll_maxConcurrent ((getNextJobs q).map (fun j => j.id)) q now
    rw [hmax]
    have hslots : (availableSlots q).toNat = q.maxConcurrent - q.runningJobIds.length := by
      unfold availableSlots; omega
    omega
  case isFalse _ => exact h

end CapLemmas

/-- C1: at every state reachable through the scheduler-system steps
(submission, the runner admission tick that calls `getNextJobs` and then
`startJob` on each returned job, completion, failure), the number of
running jobs never exceeds the configured `maxConcurrent` limit. -/
theorem running_le_maxConcurrent {m : Nat} {q : JobQueue} (h : Reachable m q) :
    q.runningJobIds.length ≤ q.maxConcurrent := by
  induction h with
  | init => simp [initQueue]
  | @step q1 q2 _ hs ih =>
    cases hs with
    | add urls now =>
      rw [addJobs_runningJobIds, addJobs_maxConcurrent]
      exact ih
    | tick now => exact admissionStep_cap q1 now ih
    | complete id meta now =>
      calc (completeJob q1 id meta now).2.runningJobIds.length
          ≤ q1.runningJobIds.length := completeJob_running_le q1 id meta now
        _ ≤ q1.maxConcurrent := ih
        _ = (completeJob q1 id meta now).2.maxConcurrent :=
            (completeJob_maxConcurrent q1 id meta now).symm
    | fail id err now =>
      calc (failJob q1 id err now).2.runningJobIds.length
          ≤ q1.runningJobIds.length := failJob_running_le q1 id err now
        _ ≤ q1.maxConcurrent := ih
        _ = (failJob q1 id err now).2.maxConcurrent :=
            (failJob_maxConcurrent q1 id err now).symm

/-- Witness for C1: three jobs submitted against limit 2, then one
admission tick — a concrete reachable state in which the bound holds. -/
theorem running_le_maxConcurrent_witness :
    (admissionStep ((addJobs (initQueue 2) [sampleUrl, sampleUrl, sampleUrl] 0).2)
        5).runningJobIds.length ≤
      (admissionStep ((addJobs (initQueue 2) [sampleUrl, sampleUrl, sampleUrl] 0).2)
        5).maxConcurrent :=
  running_le_maxConcurrent
    (Reachable.step (Reachable.step Reachable.init (Step.add _ _ _)) (Step.tick _ _))

/-- One job (id 0) submitted at t = 0 against limit 5; it is pending. -/
def qP : JobQueue := (addJobs (initQueue 5) [sampleUrl] 0).2

/-- `qP` after `startJob 0` at t = 1000; job 0 is running. -/
def qR : JobQueue := (startJob qP 0 1000).2

/-- `qR` after `completeJob 0` at t = 2000; job 0 is completed. -/
def qC : JobQueue := (completeJob qR 0 sampleMeta 2000).2

/-- `qP` after `completeJob 0` at t = 1000: job 0 is completed straight
from pending, without ever having been started. -/
def qCP : JobQueue := (completeJob qP 0 sampleMeta 1000).2

/-- The job record stored in `qP` (pending). -/
def j0P : Job :=
  { id := 0
    url := sampleUrl
    status := .pending
    outputDir := "output/example-comgame_0"
    createdAt := 0 }

/-- The job record stored in `qR` (running since t = 1000). -/
def j0R : Job := { j0P with status := .running, startedAt := some 1000 }

/-- C2 (code bug): submitting the identical input URL twice in the same
second yields two distinct jobs (ids 0 and 1) whose `outputDir` values
COLLIDE, because the directory name is the sanitized URL plus a
second-resolution timestamp with no disambiguating suffix — contradicting
`generateOutputDir`'s own "Generate unique output directory" contract and
the spec's output-uniqueness property. -/
theorem sameSecond_outputDir_collision :
    ((addJobs (initQueue 5) [sampleUrl, sampleUrl] 1700000000000).1.map
        (fun j => j.outputDir) =
      ["output/example-comgame_1700000000", "output/example-comgame_1700000000"]) ∧
    (addJobs (initQueue 5) [sampleUrl, sampleUrl] 1700000000000).1.map (fun j => j.id) =
      [0, 1] := by
  decide

/-- C3 is false as stated: a second `startJob` on an already-running job
is not a no-op — it overwrites the job's `startedAt` timestamp with the
current time (1000 becomes 2000), so the repository state changes. -/
theorem second_startJob_not_noop :
    (mapGet qR.jobs 0).bind Job.startedAt = some 1000 ∧
    (mapGet ((startJob qR 0 2000).2).jobs 0).bind Job.startedAt = some 2000 ∧
    (startJob qR 0 2000).2 ≠ qR := by
  decide

/-- C3 amended: the transition operations guard only on the id's
presence, never on the prior status.  A second `startJob` on a running
job leaves the status, the pending queue and the running set unchanged
but re-stamps `startedAt` with the current time; `completeJob` and
`failJob` set their terminal status for a present job in any prior
state (e.g. straight from pending). -/
theorem transitions_guard_only_presence (q : JobQueue) (id now : Nat)
    (meta : CompletionMetadata) (err : String) (j : Job)
    (hj : mapGet q.jobs id = some j) :
    (j.status = .running → id ∉ q.queue → id ∈ q.runningJobIds →
      (startJob q id now).2 =
        { q with jobs := mapSet q.jobs id { j with status := .running, startedAt := some now } }) ∧
    statusOf (completeJob q id meta now).2 id = some .completed ∧
    statusOf (failJob q id err now).2 id = some .failed := by
  refine ⟨fun _ hqueue hrun => ?_, ?_, ?_⟩
  · have hq : q.queue.filter (fun i => i ≠ id) = q.queue := by
      rw [List.filter_eq_self]
      intro a ha
      simp only [decide_eq_true_eq]
      exact fun hcontra => hqueue (hcontra ▸ ha)
    simp only [startJob, hj, hq, setAdd_of_mem _ _ hrun]
  · simp [completeJob, hj, statusOf, mapGet_mapSet_self]
  · simp [failJob, hj, statusOf, mapGet_mapSet_self]

/-- Witness for the amended C3, at the concrete running state `qR`. -/
theorem transitions_guard_only_presence_witness :
    ((j0R.status = .running → (0 : Nat) ∉ qR.queue → (0 : Nat) ∈ qR.runningJobIds →
      (startJob qR 0 3000).2 =
        { qR with jobs := mapSet qR.jobs 0 { j0R with status := .running, startedAt := some 3000 } }) ∧
    statusOf (completeJob qR 0 sampleMeta 3000).2 0 = some .completed ∧
    statusOf (failJob qR 0 "boom" 3000).2 0 = some .failed) :=
  transitions_guard_only_presence qR 0 3000 sampleMeta "boom" j0R (by decide)

/-- C4 is false as stated: statuses are not monotonic under arbitrary
repository operation sequences — after add, start, complete, a further
`startJob` moves the job from `completed` back to `running`. -/
theorem status_returns_to_running :
    statusOf qC 0 = some .completed ∧
    statusOf (startJob qC 0 3000).2 0 = some .running := by
  decide

section MonotoneLemmas

theorem keysBelowNext_addOne (q : JobQueue) (url : Url) (now : Nat)
    (hwf : KeysBelowNext q) :
    KeysBelowNext
      { q with
        jobs := mapSet q.jobs q.nextId
          { id := q.nextId, url := url, status := .pending,
            outputDir := generateOutputDir url now, createdAt := now }
        queue := q.queue ++ [q.nextId]
        nextId := q.nextId + 1 } := by
  intro k hk
  have hfresh : q.nextId ∉ q.jobs.map Prod.fst := fun hmem =>
    absurd (hwf _ hmem) (lt_irrefl _)
  simp only [keys_mapSet_of_not_mem q.jobs q.nextId _ hfresh, List.mem_append,
    List.mem_singleton] at hk
  rcases hk with hk | hk
  · exact Nat.lt_succ_of_lt (hwf _ hk)
  · simp [hk]

theorem mapGet_addJobs (urls : List Url) : ∀ (q : JobQueue) (now id : Nat) (j : Job),
    KeysBelowNext q → mapGet q.jobs id = some j →
    mapGet (addJobs q urls now).2.jobs id = some j := by
  induction urls with
  | nil => intro q now id j _ hj; exact hj
  | cons u rest ih =>
    intro q now id j hwf hj
    have hid : id < q.nextId := hwf _ (mem_keys_of_mapGet _ _ _ hj)
    simp only [addJobs]
    exact ih _ now id j (keysBelowNext_addOne q u now hwf)
      (by simpa [mapGet_mapSet_ne _ _ _ _ (Nat.ne_of_lt hid)] using hj)

end MonotoneLemmas

/-- C4 corrected: under the runner's discipline — every transition
invoked only on a job in its expected prior state — each job's status is
monotone along every step: it either stays put or strictly advances in
the order pending → running → (completed | failed), so no job ever
returns to `pending` or `running` after leaving it and no status is
visited twice.  (`KeysBelowNext` states that all job-map keys were
generated by the fresh-id counter, which holds for every state the code
can build.) -/
theorem guarded_status_monotone {q q' : JobQueue} (hstep : GuardedStep q q')
    (hwf : KeysBelowNext q) (id : Nat) (j j' : Job)
    (hj : mapGet q.jobs id = some j) (hj' : mapGet q'.jobs id = some j') :
    j.status = j'.status ∨ statusRank j.status < statusRank j'.status := by
  cases hstep with
  | add urls now =>
    rw [mapGet_addJobs urls q now id j hwf hj] at hj'
    exact Or.inl (by injection hj' with h; rw [h])
  | start tid now hguard =>
    obtain ⟨jt, hjt, hjts⟩ : ∃ jt, mapGet q.jobs tid = some jt ∧ jt.status = .pending := by
      simp only [statusOf, Option.map_eq_some'] at hguard
      obtain ⟨jt, h1, h2⟩ := hguard
      exact ⟨jt, h1, h2⟩
    by_cases hid : id = tid
    · subst hid
      rw [hj] at hjt
      injection hjt with hjt
      subst hjt
      simp only [startJob, hj, mapGet_mapSet_self] at hj'
      injection hj' with hj'
      right
      rw [← hj', hjts]
      simp [statusRank]
    · simp only [startJob, hjt, mapGet_mapSet_ne _ _ _ _ hid] at hj'
      rw [hj] at hj'
      exact Or.inl (by injection hj' with h; rw [h])
  | complete tid meta now hguard =>
    obtain ⟨jt, hjt, hjts⟩ : ∃ jt, mapGet q.jobs tid = some jt ∧ jt.status = .running := by
      simp only [statusOf, Option.map_eq_some'] at hguard
      obtain ⟨jt, h1, h2⟩ := hguard
      exact ⟨jt, h1, h2⟩
    by_cases hid : id = tid
    · subst hid
      rw [hj] at hjt
      injection hjt with hjt
      subst hjt
      simp only [completeJob, hj, mapGet_mapSet_self] at hj'
      injection hj' with hj'
      right
      rw [← hj', hjts]
      simp [statusRank]
    · simp only [completeJob, hjt, mapGet_mapSet_ne _ _ _ _ hid] at hj'
      rw [hj] at hj'
      exact Or.inl (by injection hj' with h; rw [h])
  | fail tid err now hguard =>
    obtain ⟨jt, hjt, hjts⟩ : ∃ jt, mapGet q.jobs tid = some jt ∧ jt.status = .running := by
      simp only [statusOf, Option.map_eq_some'] at hguard
      obtain ⟨jt, h1, h2⟩ := hguard
      exact ⟨jt, h1, h2⟩
    by_cases hid : id = tid
    · subst hid
      rw [hj] at hjt
      injection hjt with hjt
      subst hjt
      simp only [failJob, hj, mapGet_mapSet_self] at hj'
      injection hj' with hj'
      right
      rw [← hj', hjts]
      simp [statusRank]
    · simp only [failJob, hjt, mapGet_mapSet_ne _ _ _ _ hid] at hj'
      rw [hj] at hj'
      exact Or.inl (by injection hj' with h; rw [h])

/-- Witness for the amended C4: the guarded start of the pending job in
`qP` strictly advances its status. -/
theorem guarded_status_monotone_witness :
    j0P.status = j0R.status ∨ statusRank j0P.status < statusRank j0R.status :=
  guarded_status_monotone (GuardedStep.start qP 0 1000 (by decide)) (by unfold KeysBelowNext; decide) 0 j0P j0R
    (by decide) (by decide)

section FifoLemmas

theorem filterMap_mapGet_ids (jobs : List (Nat × Job)) :
    ∀ l : List Nat, (∀ i ∈ l, ∃ jq, mapGet jobs i = some jq ∧ jq.id = i) →
      (l.filterMap (fun i => mapGet jobs i)).map Job.id = l := by
  intro l
  induction l with
  | nil => intro _; rfl
  | cons i rest ih =>
    intro h
    obtain ⟨jq, hjq, hid⟩ := h i (List.mem_cons_self i rest)
    simp only [List.filterMap_cons, hjq, List.map_cons, hid]
    rw [ih (fun i' hi' => h i' (List.mem_cons_of_mem _ hi'))]

end FifoLemmas

/-- C5 is false as stated: `completeJob` does not remove a job from the
pending queue (the source lacks the `queue.filter` line that `startJob`
and `failJob` have), so a job completed straight from `pending` is still
returned by `getNextJobs` — with status `completed`, not `pending`. -/
theorem getNextJobs_returns_completed_job :
    (getNextJobs qCP).map Job.status = [JobStatus.completed] ∧ qCP.queue = [0] := by
  decide

/-- C5 amended: `getNextJobs` returns at most `availableSlots` jobs,
namely (when every queued id is present and stored under its own id, as
the code guarantees) exactly the jobs of the first
`min(availableSlots, queue.length)` queued ids in FIFO submission order,
mutating nothing; `startJob` and `failJob` remove the affected id from
the queue and hence from all future `getNextJobs` results, but
`completeJob` leaves the queue unchanged, so a job completed directly
from `pending` keeps appearing in `getNextJobs` results. -/
theorem getNextJobs_fifo_queue_removal (q : JobQueue) (id now : Nat)
    (meta : CompletionMetadata) (err : String) (j : Job) :
    (getNextJobs q).length ≤ (availableSlots q).toNat ∧
    ((∀ i ∈ q.queue, ∃ jq, mapGet q.jobs i = some jq ∧ jq.id = i) →
      (getNextJobs q).map Job.id =
        q.queue.take (min (availableSlots q).toNat q.queue.length)) ∧
    (mapGet q.jobs id = some j →
      (startJob q id now).2.queue = q.queue.filter (fun i => i ≠ id) ∧
      (failJob q id err now).2.queue = q.queue.filter (fun i => i ≠ id)) ∧
    (completeJob q id meta now).2.queue = q.queue := by
  refine ⟨getNextJobs_length_le q, fun hcons => ?_, fun hj => ⟨?_, ?_⟩, ?_⟩
  · unfold getNextJobs
    split
    case isTrue h =>
      rcases h with h | h
      · have h0 : (availableSlots q).toNat = 0 := by omega
        simp [h0]
      · have h0 : q.queue = [] := List.length_eq_zero.mp h
        simp [h0]
    case isFalse h =>
      exact (filterMap_mapGet_ids q.jobs _
        (fun i hi => hcons i (List.take_subset _ _ hi))).symm ▸ rfl
  · simp [startJob, hj]
  · simp [failJob, hj]
  · cases h : mapGet q.jobs id <;> simp [completeJob, h]

/-- Witness for the amended C5 at the one-pending-job state `qP`. -/
theorem getNextJobs_fifo_queue_removal_witness :
    (getNextJobs qP).map Job.id =
      qP.queue.take (min (availableSlots qP).toNat qP.queue.length) ∧
    (startJob qP 0 500).2.queue = qP.queue.filter (fun i => i ≠ 0) ∧
    (completeJob qP 0 sampleMeta 500).2.queue = qP.queue := by
  have hcons : ∀ i ∈ qP.queue, ∃ jq, mapGet qP.jobs i = some jq ∧ jq.id = i := by
    intro i hi
    have h0 : qP.queue = [0] := by decide
    rw [h0] at hi
    simp only [List.mem_singleton] at hi
    subst hi
    exact ⟨j0P, by decide, by decide⟩
  exact ⟨(getNextJobs_fifo_queue_removal qP 0 500 sampleMeta "e" j0P).2.1 hcons,
    ((getNextJobs_fifo_queue_removal qP 0 500 sampleMeta "e" j0P).2.2.1 (by decide)).1,
    (getNextJobs_fifo_queue_removal qP 0 500 sampleMeta "e" j0P).2.2.2⟩

section WfLemmas

theorem startJob_wf (q : JobQueue) (id now : Nat) (h : KeysBelowNext q) :
    KeysBelowNext (startJob q id now).2 ∧
    (startJob q id now).2.jobs.length = q.jobs.length := by
  cases hm : mapGet q.jobs id with
  | none => exact ⟨by simpa [startJob, hm] using h, by simp [startJob, hm]⟩
  | some j =>
    have hmem := mem_keys_of_mapGet _ _ _ hm
    refine ⟨?_, by simp [startJob, hm, length_mapSet_of_mem _ _ _ hmem]⟩
    intro k hk
    simp only [startJob, hm] at hk ⊢
    rw [keys_mapSet_of_mem _ _ _ hmem] at hk
    exact h k hk

theorem completeJob_wf (q : JobQueue) (id : Nat) (meta : CompletionMetadata) (now : Nat)
    (h : KeysBelowNext q) :
    KeysBelowNext (completeJob q id meta now).2 ∧
    (completeJob q id meta now).2.jobs.length = q.jobs.length := by
  cases hm : mapGet q.jobs id with
  | none => exact ⟨by simpa [completeJob, hm] using h, by simp [completeJob, hm]⟩
  | some j =>
    have hmem := mem_keys_of_mapGet _ _ _ hm
    refine ⟨?_, by simp [completeJob, hm, length_mapSet_of_mem _ _ _ hmem]⟩
    intro k hk
    simp only [completeJob, hm] at hk ⊢
    rw [keys_mapSet_of_mem _ _ _ hmem] at hk
    exact h k hk

theorem failJob_wf (q : JobQueue) (id : Nat) (err : String) (now : Nat)
    (h : KeysBelowNext q) :
    KeysBelowNext (failJob q id err now).2 ∧
    (failJob q id err now).2.jobs.length = q.jobs.length := by
  cases hm : mapGet q.jobs id with
  | none => exact ⟨by simpa [failJob, hm] using h, by simp [failJob, hm]⟩
  | some j =>
    have hmem := mem_keys_of_mapGet _ _ _ hm
    refine ⟨?_, by simp [failJob, hm, length_mapSet_of_mem _ _ _ hmem]⟩
    intro k hk
    simp only [failJob, hm] at hk ⊢
    rw [keys_mapSet_of_mem _ _ _ hmem] at hk
    exact h k hk

theorem addJobs_wf (urls : List Url) : ∀ (q : JobQueue) (now : Nat), KeysBelowNext q →
    KeysBelowNext (addJobs q urls now).2 ∧
    (addJobs q urls now).2.jobs.length = q.jobs.length + urls.length := by
  induction urls with
  | nil => intro q now h; exact ⟨h, rfl⟩
  | cons u rest ih =>
    intro q now h
    have hfresh : q.nextId ∉ q.jobs.map Prod.fst := fun hmem =>
      absurd (h _ hmem) (lt_irrefl _)
    have hwf1 := keysBelowNext_addOne q u now h
    obtain ⟨h1, h2⟩ := ih _ now hwf1
    refine ⟨by simpa [addJobs] using h1, ?_⟩
    simp only [addJobs]
    rw [h2]
    simp only [length_mapSet_of_not_mem _ _ _ hfresh, List.length_cons]
    omega

theorem runOps_wf (ops : List Op) : ∀ q : JobQueue, KeysBelowNext q →
    KeysBelowNext (runOps q ops) ∧
    (runOps q ops).jobs.length = q.jobs.length + submittedCount ops := by
  induction ops with
  | nil => intro q h; exact ⟨h, by simp [runOps, submittedCount]⟩
  | cons op rest ih =>
    intro q h
    have hrest : runOps q (op :: rest) = runOps (applyOp q op) rest := by
      simp [runOps]
    cases op with
    | add urls now =>
      obtain ⟨h1, h2⟩ := addJobs_wf urls q now h
      obtain ⟨h3, h4⟩ := ih _ h1
      rw [hrest]
      simp only [applyOp]
      refine ⟨h3, ?_⟩
      rw [h4, h2]
      simp only [submittedCount]
      omega
    | start id now =>
      obtain ⟨h1, h2⟩ := startJob_wf q id now h
      obtain ⟨h3, h4⟩ := ih _ h1
      rw [hrest]
      simp only [applyOp]
      exact ⟨h3, by rw [h4, h2]; simp [submittedCount]⟩
    | complete id meta now =>
      obtain ⟨h1, h2⟩ := completeJob_wf q id meta now h
      obtain ⟨h3, h4⟩ := ih _ h1
      rw [hrest]
      simp only [applyOp]
      exact ⟨h3, by rw [h4, h2]; simp [submittedCount]⟩
    | fail id err now =>
      obtain ⟨h1, h2⟩ := failJob_wf q id err now h
      obtain ⟨h3, h4⟩ := ih _ h1
      rw [hrest]
      simp only [applyOp]
      exact ⟨h3, by rw [h4, h2]; simp [submittedCount]⟩

end WfLemmas

/-- C6: after every sequence of repository operations starting from a
fresh queue, the four `getStats` counters sum to the total number of jobs
ever submitted via `addJobs` — jobs are never deleted, each holds exactly
one status, and only `addJobs` grows the map. -/
theorem stats_sum_eq_submitted (m : Nat) (ops : List Op) :
    statsSum (getStats (runOps (initQueue m) ops)) = submittedCount ops := by
  rw [statsSum_getStats]
  have h0 : KeysBelowNext (initQueue m) := by
    intro k hk
    simp [initQueue] at hk
  have := (runOps_wf ops (initQueue m) h0).2
  simpa [initQueue] using this

/-- C10: each of `startJob`, `completeJob`, `failJob` returns `null`
(`none`) and leaves the whole repository state untouched exactly when the
id is absent from the jobs map; for a present id each returns the updated
job record rather than `null`. -/
theorem transitions_null_iff_absent (q : JobQueue) (id now : Nat)
    (meta : CompletionMetadata) (err : String) :
    (mapGet q.jobs id = none →
      startJob q id now = (none, q) ∧
      completeJob q id meta now = (none, q) ∧
      failJob q id err now = (none, q)) ∧
    (∀ j, mapGet q.jobs id = some j →
      (startJob q id now).1 = some { j with status := .running, startedAt := some now } ∧
      (completeJob q id meta now).1 =
        some { j with
                status := .completed
                completedAt := some now
                duration := some meta.duration
                actionCount := some meta.actionCount
                screenshotCount := some meta.screenshotCount } ∧
      (failJob q id err now).1 =
        some { j with status := .failed, completedAt := some now, error := some err }) := by
  constructor
  · intro h
    exact ⟨by simp [startJob, h], by simp [completeJob, h], by simp [failJob, h]⟩
  · intro j h
    exact ⟨by simp [startJob, h], by simp [completeJob, h], by simp [failJob, h]⟩

/-- Witness for C10: id 7 is absent from `qP` (no-op, `none`); id 0 is
present (updated record returned). -/
theorem transitions_null_iff_absent_witness :
    (startJob qP 7 9 = (none, qP) ∧
      completeJob qP 7 sampleMeta 9 = (none, qP) ∧
      failJob qP 7 "e" 9 = (none, qP)) ∧
    (startJob qP 0 9).1 = some { j0P with status := .running, startedAt := some 9 } :=
  ⟨(transitions_null_iff_absent qP 7 9 sampleMeta "e").1 (by decide),
    ((transitions_null_iff_absent qP 0 9 sampleMeta "e").2 j0P (by decide)).1⟩

section BroadcastLemmas

theorem broadcastSSE_cons_skip (m : Msg) (c : SSEClient) (rest : List SSEClient)
    (h : sseSkips c m = true) :
    broadcastSSE m (c :: rest) =
      (c :: (broadcastSSE m rest).1, (broadcastSSE m rest).2) := by
  simp [broadcastSSE, h]

theorem broadcastSSE_cons_fail (m : Msg) (c : SSEClient) (rest : List SSEClient)
    (h1 : sseSkips c m = false) (h2 : c.enqueueFails = true) :
    broadcastSSE m (c :: rest) = broadcastSSE m rest := by
  simp [broadcastSSE, h1, h2]

theorem broadcastSSE_cons_ok (m : Msg) (c : SSEClient) (rest : List SSEClient)
    (h1 : sseSkips c m = false) (h2 : c.enqueueFails = false) :
    broadcastSSE m (c :: rest) =
      (c :: (broadcastSSE m rest).1, c.id :: (broadcastSSE m rest).2) := by
  simp [broadcastSSE, h1, h2]

theorem broadcastSSE_delivered_subset (m : Msg) : ∀ cs : List SSEClient,
    ∀ x ∈ (broadcastSSE m cs).2, x ∈ cs.map SSEClient.id := by
  intro cs
  induction cs with
  | nil => intro x hx; simp [broadcastSSE] at hx
  | cons c rest ih =>
    intro x hx
    cases hs : sseSkips c m with
    | true =>
      rw [broadcastSSE_cons_skip m c rest hs] at hx
      exact List.mem_cons_of_mem _ (ih x hx)
    | false =>
      cases hf : c.enqueueFails with
      | true =>
        rw [broadcastSSE_cons_fail m c rest hs hf] at hx
        exact List.mem_cons_of_mem _ (ih x hx)
      | false =>
        rw [broadcastSSE_cons_ok m c rest hs hf] at hx
        rcases List.mem_cons.mp hx with hx | hx
        · simp [hx]
        · exact List.mem_cons_of_mem _ (ih x hx)

theorem broadcastSSE_registry_subset (m : Msg) : ∀ cs : List SSEClient,
    ∀ c ∈ (broadcastSSE m cs).1, c ∈ cs := by
  intro cs
  induction cs with
  | nil => intro c hc; simp [broadcastSSE] at hc
  | cons c' rest ih =>
    intro c hc
    cases hs : sseSkips c' m with
    | true =>
      rw [broadcastSSE_cons_skip m c' rest hs] at hc
      rcases List.mem_cons.mp hc with hc | hc
      · simp [hc]
      · exact List.mem_cons_of_mem _ (ih c hc)
    | false =>
      cases hf : c'.enqueueFails with
      | true =>
        rw [broadcastSSE_cons_fail m c' rest hs hf] at hc
        exact List.mem_cons_of_mem _ (ih c hc)
      | false =>
        rw [broadcastSSE_cons_ok m c' rest hs hf] at hc
        rcases List.mem_cons.mp hc with hc | hc
        · simp [hc]
        · exact List.mem_cons_of_mem _ (ih c hc)

theorem broadcastSSE_keeps (m : Msg) : ∀ cs : List SSEClient, ∀ c ∈ cs,
    c.enqueueFails = false → c ∈ (broadcastSSE m cs).1 := by
  intro cs
  induction cs with
  | nil => intro c hc; simp at hc
  | cons c' rest ih =>
    intro c hc hok
    rcases List.mem_cons.mp hc with hc | hc
    · subst hc
      cases hs : sseSkips c m with
      | true => rw [broadcastSSE_cons_skip m c rest hs]; exact List.mem_cons_self _ _
      | false => rw [broadcastSSE_cons_ok m c rest hs hok]; exact List.mem_cons_self _ _
    · have hmem := ih c hc hok
      cases hs : sseSkips c' m with
      | true =>
        rw [broadcastSSE_cons_skip m c' rest hs]
        exact List.mem_cons_of_mem _ hmem
      | false =>
        cases hf : c'.enqueueFails with
        | true => rw [broadcastSSE_cons_fail m c' rest hs hf]; exact hmem
        | false =>
          rw [broadcastSSE_cons_ok m c' rest hs hf]
          exact List.mem_cons_of_mem _ hmem

theorem broadcastSSE_prunes (m : Msg) : ∀ cs : List SSEClient,
    (cs.map SSEClient.id).Nodup → ∀ c ∈ cs, c.enqueueFails = true →
    sseSkips c m = false → c.id ∉ ((broadcastSSE m cs).1).map SSEClient.id := by
  intro cs
  induction cs with
  | nil => intro _ c hc; simp at hc
  | cons c' rest ih =>
    intro hnd c hc hfail hskip
    rw [List.map_cons] at hnd
    have hnd' := List.nodup_cons.mp hnd
    rcases List.mem_cons.mp hc with hc | hc
    · subst hc
      rw [broadcastSSE_cons_fail m c rest hskip hfail]
      intro hmem
      rcases List.mem_map.mp hmem with ⟨d, hd, hdid⟩
      have hdrest := broadcastSSE_registry_subset m rest d hd
      exact hnd'.1 (hdid ▸ List.mem_map_of_mem SSEClient.id hdrest)
    · have hcid : c.id ∈ rest.map SSEClient.id := List.mem_map_of_mem _ hc
      have hne : c.id ≠ c'.id := fun h => hnd'.1 (h ▸ hcid)
      have hrec := ih hnd'.2 c hc hfail hskip
      cases hs : sseSkips c' m with
      | true =>
        rw [broadcastSSE_cons_skip m c' rest hs]
        simp only [List.map_cons, List.mem_cons]
        exact fun h => h.elim (fun h1 => hne h1) hrec
      | false =>
        cases hf : c'.enqueueFails with
        | true => rw [broadcastSSE_cons_fail m c' rest hs hf]; exact hrec
        | false =>
          rw [broadcastSSE_cons_ok m c' rest hs hf]
          simp only [List.map_cons, List.mem_cons]
          exact fun h => h.elim (fun h1 => hne h1) hrec

theorem broadcastSSE_delivered_iff (m : Msg) : ∀ cs : List SSEClient,
    (cs.map SSEClient.id).Nodup → ∀ c ∈ cs, c.enqueueFails = false →
    (c.id ∈ (broadcastSSE m cs).2 ↔ sseSkips c m = false) := by
  intro cs
  induction cs with
  | nil => intro _ c hc; simp at hc
  | cons c' rest ih =>
    intro hnd c hc hok
    rw [List.map_cons] at hnd
    have hnd' := List.nodup_cons.mp hnd
    rcases List.mem_cons.mp hc with hc | hc
    · subst hc
      cases hs : sseSkips c m with
      | true =>
        rw [broadcastSSE_cons_skip m c rest hs]
        constructor
        · intro hdel
          exact absurd (broadcastSSE_delivered_subset m rest c.id hdel) hnd'.1
        · intro h; cases h
      | false =>
        rw [broadcastSSE_cons_ok m c rest hs hok]
        simp [hs]
    · have hcid : c.id ∈ rest.map SSEClient.id := List.mem_map_of_mem _ hc
      have hne : c.id ≠ c'.id := fun h => hnd'.1 (h ▸ hcid)
      have hrec := ih hnd'.2 c hc hok
      cases hs : sseSkips c' m with
      | true => rw [broadcastSSE_cons_skip m c' rest hs]; exact hrec
      | false =>
        cases hf : c'.enqueueFails with
        | true => rw [broadcastSSE_cons_fail m c' rest hs hf]; exact hrec
        | false =>
          rw [broadcastSSE_cons_ok m c' rest hs hf]
          rw [← hrec]
          simp only [List.mem_cons]
          exact ⟨fun h => h.elim (fun h1 => absurd h1 hne) id, Or.inr⟩

end BroadcastLemmas

/-- C7: a registered SSE subscriber with a (non-empty) job filter `b` and
a working sink is sent a broadcast event if and only if the event's
`data.jobId` equals `b`; in particular events without a `jobId` (aggregate
stats / queue updates) reach only unfiltered subscribers, which always
receive the event. -/
theorem sse_filtered_delivery_iff (s : DashboardServer) (m : Msg) (c : SSEClient)
    (hnd : (s.sseClients.map SSEClient.id).Nodup) (hc : c ∈ s.sseClients)
    (hok : c.enqueueFails = false) :
    (∀ b, c.jobId = some b → b ≠ "" →
      (c.id ∈ (broadcast s m).sseDelivered ↔ m.dataJobId = some b)) ∧
    (c.jobId = none → c.id ∈ (broadcast s m).sseDelivered) := by
  have hiff := broadcastSSE_delivered_iff m s.sseClients hnd c hc hok
  have hdel : (broadcast s m).sseDelivered = (broadcastSSE m s.sseClients).2 := rfl
  constructor
  · intro b hb hbne
    rw [hdel, hiff]
    simp [sseSkips, hb, hbne]
  · intro hb
    rw [hdel, hiff]
    simp [sseSkips, hb]

/-- A filtered SSE subscriber bound to job id "jobA", with a working sink. -/
def sseFiltered : SSEClient := { id := "sub1", jobId := some "jobA", enqueueFails := false }

/-- A server with a single filtered SSE subscriber. -/
def sse0 : DashboardServer := { clients := [], sseClients := [sseFiltered] }

/-- A job event carrying `jobId = "jobA"`. -/
def msgA : Msg := { type := "log", dataJobId := some "jobA" }

/-- Witness for C7: the filtered subscriber receives the matching event. -/
theorem sse_filtered_delivery_iff_witness :
    sseFiltered.id ∈ (broadcast sse0 msgA).sseDelivered ↔ msgA.dataJobId = some "jobA" :=
  (sse_filtered_delivery_iff sse0 msgA sseFiltered (by decide) (by decide) (by decide)).1
    "jobA" rfl (by decide)

/-- A WebSocket client whose `send` throws. -/
def wsBad : WSClient := { clientId := "ws1", sendFails := true }

/-- A server with only the broken WebSocket client. -/
def wsServer : DashboardServer := { clients := [wsBad], sseClients := [] }

/-- An aggregate event without a `jobId`. -/
def msgB : Msg := { type := "queue-update", dataJobId := none }

/-- C8 is false as stated: a WebSocket client whose delivery fails is NOT
removed from the registry by `broadcast` — the thrown `send` is caught
and only logged, and the client set is left untouched (WebSocket clients
are removed only by their `close` handler). -/
theorem failed_ws_client_not_removed :
    wsBad.sendFails = true ∧
    (broadcast wsServer msgB).server.clients = [wsBad] ∧
    (broadcast wsServer msgB).wsDelivered = [] := by
  decide

/-- C8 amended: `broadcast` attempts delivery to each subscriber
independently and never throws; a failed SSE delivery removes that SSE
subscriber from the registry, while a failed WebSocket send leaves the
WebSocket registry untouched (only logged); either way a failure neither
prevents nor alters delivery to any other subscriber — every healthy
WebSocket client is delivered to, every healthy SSE subscriber stays
registered, and every healthy non-filtered-out SSE subscriber is
delivered to, whatever the other subscribers' states. -/
theorem broadcast_isolation (s : DashboardServer) (m : Msg) :
    (broadcast s m).server.clients = s.clients ∧
    (∀ c ∈ s.clients, c.sendFails = false →
      c.clientId ∈ (broadcast s m).wsDelivered) ∧
    (∀ c ∈ s.sseClients, c.enqueueFails = false →
      c ∈ (broadcast s m).server.sseClients) ∧
    ((s.sseClients.map SSEClient.id).Nodup →
      ∀ c ∈ s.sseClients, c.enqueueFails = true → sseSkips c m = false →
        c.id ∉ ((broadcast s m).server.sseClients.map SSEClient.id)) ∧
    ((s.sseClients.map SSEClient.id).Nodup →
      ∀ c ∈ s.sseClients, c.enqueueFails = false → sseSkips c m = false →
        c.id ∈ (broadcast s m).sseDelivered) := by
  refine ⟨rfl, ?_, ?_, ?_, ?_⟩
  · intro c hc hok
    have : c ∈ s.clients.filter (fun c => !c.sendFails) :=
      List.mem_filter.mpr ⟨hc, by simp [hok]⟩
    exact List.mem_map_of_mem _ this
  · intro c hc hok
    exact broadcastSSE_keeps m s.sseClients c hc hok
  · intro hnd c hc hfail hskip
    exact broadcastSSE_prunes m s.sseClients hnd c hc hfail hskip
  · intro hnd c hc hok hskip
    exact (broadcastSSE_delivered_iff m s.sseClients hnd c hc hok).mpr hskip

/-- A healthy unfiltered SSE subscriber. -/
def sseGood : SSEClient := { id := "g", jobId := none, enqueueFails := false }

/-- An SSE subscriber whose `enqueue` throws. -/
def sseBadC : SSEClient := { id := "b", jobId := none, enqueueFails := true }

/-- A server with a broken WebSocket client, a healthy SSE subscriber and
a broken SSE subscriber. -/
def s8 : DashboardServer := { clients := [wsBad], sseClients := [sseGood, sseBadC] }

/-- Witness for the amended C8: amid failures, the healthy SSE subscriber
stays registered and is delivered to, and the broken SSE subscriber is
pruned. -/
theorem broadcast_isolation_witness :
    (broadcast s8 msgB).server.clients = s8.clients ∧
    sseGood ∈ (broadcast s8 msgB).server.sseClients ∧
    ("b" ∉ ((broadcast s8 msgB).server.sseClients.map SSEClient.id)) ∧
    "g" ∈ (broadcast s8 msgB).sseDelivered :=
  ⟨(broadcast_isolation s8 msgB).1,
    (broadcast_isolation s8 msgB).2.2.1 sseGood (by decide) rfl,
    (broadcast_isolation s8 msgB).2.2.2.1 (by decide) sseBadC (by decide) rfl (by decide),
    (broadcast_isolation s8 msgB).2.2.2.2 (by decide) sseGood (by decide) rfl (by decide)⟩

section ResultsLemmas

theorem insertByStartedAt_perm (x : String × RunRecord) :
    ∀ l, List.Perm (insertByStartedAt x l) (x :: l) := by
  intro l
  induction l with
  | nil => exact List.Perm.refl _
  | cons y rest ih =>
    by_cases h : y.2.startedAt ≤ x.2.startedAt
    · simp [insertByStartedAt, h]
    · simp only [insertByStartedAt, if_neg h]
      exact (ih.cons y).trans (List.Perm.swap x y rest)

theorem sortRunsDesc_perm : ∀ runs, List.Perm (sortRunsDesc runs) runs := by
  intro runs
  induction runs with
  | nil => exact List.Perm.refl _
  | cons x rest ih =>
    simp only [sortRunsDesc, List.foldr_cons] at ih ⊢
    exact (insertByStartedAt_perm x _).trans (ih.cons x)

theorem collectRuns_ok (entries : List DirEntry)
    (h : ∀ e ∈ entries, e.isDir = true → e.metadata ≠ some none) :
    collectRuns entries = .ok (wellFormedRuns entries) := by
  induction entries with
  | nil => rfl
  | cons e rest ih =>
    have hrest := ih (fun e' he' => h e' (List.mem_cons_of_mem _ he'))
    cases hd : e.isDir with
    | false => simp [collectRuns, wellFormedRuns, List.filterMap_cons, hd, hrest]
    | true =>
      cases hm : e.metadata with
      | none => simp [collectRuns, wellFormedRuns, List.filterMap_cons, hd, hm, hrest]
      | some parsed =>
        cases parsed with
        | none => exact absurd hm (h e (List.mem_cons_self _ _) hd)
        | some r =>
          simp [collectRuns, wellFormedRuns, List.filterMap_cons, hd, hm, hrest,
            Except.map]

theorem collectRuns_error (entries : List DirEntry) : ∀ e ∈ entries,
    e.isDir = true → e.metadata = some none → collectRuns entries = .error () := by
  induction entries with
  | nil => intro e he; simp at he
  | cons e' rest ih =>
    intro e he hd hm
    rcases List.mem_cons.mp he with he | he
    · subst he
      simp [collectRuns, hd, hm]
    · have hrest := ih e he hd hm
      cases hd' : e'.isDir with
      | false => simpa [collectRuns, hd'] using hrest
      | true =>
        cases hm' : e'.metadata with
        | none => simpa [collectRuns, hd', hm'] using hrest
        | some parsed =>
          cases parsed with
          | none => simp [collectRuns, hd', hm']
          | some r => simp [collectRuns, hd', hm', hrest, Except.map]

end ResultsLemmas

/-- A directory whose metadata record exists and parses. -/
def goodEntry : DirEntry :=
  { name := "run-a", isDir := true, metadata := some (some { jobId := 1, startedAt := 100 }) }

/-- A directory whose metadata record exists but fails `JSON.parse`. -/
def badEntry : DirEntry :=
  { name := "run-b", isDir := true, metadata := some none }

/-- C9 is false as stated: one malformed `run-metadata.json` makes the
whole `/api/results` listing come back EMPTY — the parse error thrown
inside the scan loop is caught only by the handler-wide `try/catch`,
which answers with `runs: []`, so the well-formed record of `run-a` is
not returned either. -/
theorem malformed_record_empties_listing :
    apiResults [goodEntry, badEntry] = [] ∧
    wellFormedRuns [goodEntry, badEntry] = [("run-a", { jobId := 1, startedAt := 100 })] := by
  decide

/-- C9 amended: directories with a missing metadata record are skipped
and, as long as every present record parses, the listing returns exactly
the records of all directories with a well-formed record (sorted by
recency); but a single malformed record aborts the scan and makes the
handler return an empty listing. -/
theorem apiResults_behavior (entries : List DirEntry) :
    ((∀ e ∈ entries, e.isDir = true → e.metadata ≠ some none) →
      List.Perm (apiResults entries) (wellFormedRuns entries)) ∧
    (∀ e ∈ entries, e.isDir = true → e.metadata = some none →
      apiResults entries = []) := by
  constructor
  · intro h
    simp only [apiResults, collectRuns_ok entries h]
    exact sortRunsDesc_perm _
  · intro e he hd hm
    simp only [apiResults, collectRuns_error entries e he hd hm]

/-- Witness for the amended C9: with only well-formed entries the listing
is a permutation of the well-formed records; with a malformed entry it is
empty. -/
theorem apiResults_behavior_witness :
    List.Perm (apiResults [goodEntry]) (wellFormedRuns [goodEntry]) ∧
    apiResults [goodEntry, badEntry] = [] :=
  ⟨(apiResults_behavior [goodEntry]).1 (by decide),
    (apiResults_behavior [goodEntry, badEntry]).2 badEntry (by decide) rfl rfl⟩

end GameAutoplay
